import Mathlib

/-!
Shallow embedding of the project-root detector (src/src/lib.rs) and proofs of
the specification claims about it.

Paths are modelled as lists of components of an absolute path: `[]` is the
filesystem root `/`, and `[a, b]` is `/a/b`.  A component is an OS string:
either valid UTF-8 (a `String`) or a raw non-UTF-8 byte sequence, mirroring
Rust's `OsStr` whose `to_str` returns `None` on invalid UTF-8.

The filesystem is an abstract structure `FS` supplying exactly the three
effects the source code performs: `canonicalize` (symlink resolution, which
may fail), existence checks, and directory listing (which may fail).
-/

namespace RootDetect

/-- An OS path component: valid UTF-8 text, or raw bytes that are not valid
UTF-8 (Rust `OsStr` whose `to_str` is `None`). -/
inductive OsStr where
  | utf8 (s : String)
  | raw (bytes : List Nat)
deriving DecidableEq

/-- An absolute filesystem path as its list of components; `[]` is the root. -/
abbrev Path := List OsStr

/-- Rust `OsStr::to_str`: `some` for valid UTF-8, `none` for raw bytes. -/
def OsStr.toStr : OsStr → Option String
  | .utf8 s => some s
  | .raw _ => none

/-- Rust `Path::parent`: the root has no parent; otherwise drop the last
component. -/
def parentOf : Path → Option Path
  | [] => none
  | x :: xs => some ((x :: xs).dropLast)

/-- Rust `Path::file_name`: the last component, if any. -/
def fileName (p : Path) : Option OsStr := p.getLast?

/-- `file_name().and_then(|n| n.to_str())` from the source. -/
def fileNameStr (p : Path) : Option String := (fileName p).bind OsStr.toStr

/-- One `loop { ...; current = current.parent() }` walk from the source,
with an explicit structural bound: each parent step removes one component,
so `length + 1` steps always reach the root (the loop's own termination
condition, "parent of current equals current / parent is none"). -/
def parentChain : Nat → Path → List Path
  | 0, _ => []
  | fuel + 1, p =>
    p ::
      (match parentOf p with
       | some par => parentChain fuel par
       | none => [])

/-- The ascent chain `p, parent p, ..., root` produced by the source's
upward walks (used in `compute_lca`, `find_orphanage` and
`find_marker_root`). -/
def ancestorsOf (p : Path) : List Path := parentChain (p.length + 1) p

/-- The abstract filesystem: the three primitive effects the source performs.
`canon` is `Path::canonicalize` (may fail), `pathExists` is `Path::exists`,
`readDir` is `std::fs::read_dir` returning the entry names (may fail). -/
structure FS where
  canon : Path → Option Path
  pathExists : Path → Bool
  readDir : Path → Option (List OsStr)

/-- The `Config` struct: exclusion names, marker names, case flag.  The Rust
`HashSet<String>` fields are modelled as lists with membership semantics. -/
structure Config where
  exclusions : List String
  markers : List String
  case_insensitive : Bool
deriving DecidableEq

/-- `Config::matches_exclusion`: case-insensitive comparison lowercases both
sides, otherwise exact set membership. -/
def Config.matches_exclusion (cfg : Config) (name : String) : Bool :=
  if cfg.case_insensitive then
    cfg.exclusions.any (fun e => e.toLower == name.toLower)
  else
    cfg.exclusions.contains name

/-- `Config::marker_exists_in`: for each marker, check `dir.join(marker)`
exists; when case-insensitive additionally scan the directory listing for a
case-folded name match.  Errors from `read_dir` are ignored. -/
def Config.marker_exists_in (cfg : Config) (fs : FS) (dir : Path) : Bool :=
  cfg.markers.any (fun marker =>
    fs.pathExists (dir ++ [OsStr.utf8 marker]) ||
      (cfg.case_insensitive &&
        match fs.readDir dir with
        | some entries =>
            entries.any (fun entry =>
              match entry.toStr with
              | some name => name.toLower == marker.toLower
              | none => false)
        | none => false))

/-- `Config::with_exclusions`: extend the exclusion set (set union). -/
def Config.with_exclusions (cfg : Config) (names : List String) : Config :=
  { cfg with exclusions := cfg.exclusions ++ names }

/-- `Config::with_markers`: extend the marker set (set union). -/
def Config.with_markers (cfg : Config) (names : List String) : Config :=
  { cfg with markers := cfg.markers ++ names }

/-- The `ExclusionCache`: a map from canonicalized paths to exclusion
verdicts.  The Rust `HashMap` is modelled as an association list; `insert`
conses (shadowing any older entry, which matches `HashMap::insert`'s
replacement as observed through `get`). -/
structure ExclusionCache where
  entries : List (Path × Bool)
deriving DecidableEq

/-- `ExclusionCache::new` / `ExclusionCache::default`: the empty cache. -/
def ExclusionCache.new : ExclusionCache := ⟨[]⟩

/-- `ExclusionCache::get`. -/
def ExclusionCache.find (c : ExclusionCache) (p : Path) : Option Bool :=
  (c.entries.find? (fun e => decide (e.1 = p))).map (fun e => e.2)

/-- `ExclusionCache::insert`. -/
def ExclusionCache.insert (c : ExclusionCache) (p : Path) (b : Bool) :
    ExclusionCache := ⟨(p, b) :: c.entries⟩

/-- The verdict computation from the source lines 222-225: true iff any
component of the resolved path whose `to_str` succeeds matches an exclusion
name.  Components that are not valid UTF-8 are skipped by the `filter_map`. -/
def exclusionVerdict (cfg : Config) (resolved : Path) : Bool :=
  (resolved.filterMap OsStr.toStr).any cfg.matches_exclusion

/-- `is_excluded`: canonicalize (failure means excluded), then consult the
cache, else compute the verdict and store it keyed by the resolved path.
Returns the verdict together with the (possibly updated) cache. -/
def is_excluded (fs : FS) (cfg : Config) (path : Path)
    (cache : Option ExclusionCache) : Bool × Option ExclusionCache :=
  match fs.canon path with
  | none => (true, cache)
  | some resolved =>
    match cache with
    | none => (exclusionVerdict cfg resolved, none)
    | some c =>
      match c.find resolved with
      | some b => (b, some c)
      | none =>
        let v := exclusionVerdict cfg resolved
        (v, some (c.insert resolved v))

/-- The exclusion-boundary test performed at each step of the marker ascent
(source lines 241-245): the directory's base name, when valid UTF-8, matches
an exclusion name. -/
def exclStop (cfg : Config) (d : Path) : Bool :=
  match fileNameStr d with
  | some name => cfg.matches_exclusion name
  | none => false

/-- The loop body of `find_marker_root`, walking the ascent chain: stop with
`none` at an exclusion boundary, return the first directory containing a
marker, else continue upward. -/
def markerAscend (fs : FS) (cfg : Config) : List Path → Option Path
  | [] => none
  | d :: rest =>
    if exclStop cfg d then none
    else if cfg.marker_exists_in fs d then some d
    else markerAscend fs cfg rest

/-- `find_marker_root`: ascend from the file's parent (`?` on `parent()`). -/
def find_marker_root (fs : FS) (cfg : Config) (source : Path) : Option Path :=
  match parentOf source with
  | none => none
  | some par => markerAscend fs cfg (ancestorsOf par)

/-- `find_orphanage`: collect the ancestors (from the file's parent upward)
that are members of the source-directory set and return the last collected
one (the outermost, closest to the root); fall back to the parent when none
qualifies.  `parent` is `source.parent().unwrap_or(source)`. -/
def find_orphanage (source : Path) (source_dirs : List Path) : Path :=
  let par := (parentOf source).getD source
  let hits := (ancestorsOf par).filter (fun a => decide (a ∈ source_dirs))
  match hits.getLast? with
  | some outermost => outermost
  | none => par

/-- The `max_by_key(|p| p.components().count())` step of `compute_lca`.
Rust iterates a `HashSet` in unspecified order and keeps the maximum; among
the sets `compute_lca` builds (intersections of ancestor chains) all element
lengths are pairwise distinct, so every iteration order yields the same
element; we fix one order. -/
def deepestOf : List Path → Option Path
  | [] => none
  | p :: ps =>
    match deepestOf ps with
    | none => some p
    | some q => if q.length > p.length then some q else some p

/-- `compute_lca`: canonicalize each path (skipping failures), build each
resolved path's ancestor chain (the path itself up to the root), intersect
the chains, and return the deepest element of the intersection. -/
def compute_lca (fs : FS) (paths : List Path) : Option Path :=
  let chains := paths.filterMap (fun p => (fs.canon p).map ancestorsOf)
  match chains with
  | [] => none
  | c :: cs =>
    deepestOf (cs.foldl (fun acc chain => acc.filter (fun a => decide (a ∈ chain))) c)

/-- The `cluster.iter().filter(|f| !is_excluded(f, config, cache))` step of
`find_root_with_cache`, threading the shared mutable cache through the
successive `is_excluded` calls. -/
def filterValid (fs : FS) (cfg : Config) :
    List Path → Option ExclusionCache → List Path × Option ExclusionCache
  | [], cache => ([], cache)
  | p :: ps, cache =>
    let r := is_excluded fs cfg p cache
    let rest := filterValid fs cfg ps r.2
    ((if r.1 then rest.1 else p :: rest.1), rest.2)

/-- `find_root_with_cache`: the resolution cascade.  Case 1 exclusion, case 2
innermost marker, case 3 dependency-cluster LCA (only with more than one
valid member, and only when `compute_lca` yields a result), case 4 orphanage
when a source-directory set is supplied, else the parent-or-self fallback. -/
def find_root_with_cache (fs : FS) (cfg : Config) (source_file : Path)
    (source_dirs : Option (List Path)) (dependency_cluster : Option (List Path))
    (cache : Option ExclusionCache) : Option Path × Option ExclusionCache :=
  let r0 := is_excluded fs cfg source_file cache
  if r0.1 then (none, r0.2)
  else
    match find_marker_root fs cfg source_file with
    | some root => (some root, r0.2)
    | none =>
      let r1 : Option Path × Option ExclusionCache :=
        match dependency_cluster with
        | some cluster =>
          let v := filterValid fs cfg cluster r0.2
          if 1 < v.1.length then (compute_lca fs v.1, v.2) else (none, v.2)
        | none => (none, r0.2)
      match r1.1 with
      | some lca => (some lca, r1.2)
      | none =>
        match source_dirs with
        | some dirs => (some (find_orphanage source_file dirs), r1.2)
        | none => (some ((parentOf source_file).getD source_file), r1.2)

/-- `find_root`: `find_root_with_cache` with no cache. -/
def find_root (fs : FS) (cfg : Config) (source_file : Path)
    (source_dirs : Option (List Path)) (dependency_cluster : Option (List Path)) :
    Option Path :=
  (find_root_with_cache fs cfg source_file source_dirs dependency_cluster none).1

/-- The source-directory computation of `find_roots_batch` (source lines
426-430): the parents, as given (no canonicalization), of every input file
that is not excluded, sharing one exclusion cache across the checks. -/
def batchSourceDirs (fs : FS) (cfg : Config) :
    List Path → ExclusionCache → List Path × ExclusionCache
  | [], cache => ([], cache)
  | f :: rest, cache =>
    let r := is_excluded fs cfg f (some cache)
    let cache1 := r.2.getD cache
    let rr := batchSourceDirs fs cfg rest cache1
    ((if r.1 then rr.1
      else
        match parentOf f with
        | some d => d :: rr.1
        | none => rr.1), rr.2)

/-- The per-file resolution loop of `find_roots_batch`, threading the shared
cache in input order. -/
def resolveAll (fs : FS) (cfg : Config) (dirs : List Path) :
    List Path → ExclusionCache → List (Path × Option Path) × ExclusionCache
  | [], cache => ([], cache)
  | p :: ps, cache =>
    let r := find_root_with_cache fs cfg p (some dirs) none (some cache)
    let cache1 := r.2.getD cache
    let rest := resolveAll fs cfg dirs ps cache1
    ((p, r.1) :: rest.1, rest.2)

/-- `find_roots_batch`: compute the shared source-directory set with a fresh
cache, then resolve every file against it with the same cache. -/
def find_roots_batch (fs : FS) (cfg : Config) (files : List Path) :
    List (Path × Option Path) :=
  let sd := batchSourceDirs fs cfg files ExclusionCache.new
  (resolveAll fs cfg sd.1 files sd.2).1

/-! ## Spec-side definitions (for refinement comparison) -/

/-- The single-file resolution cascade exactly as the spec's section 4.6
words it: excluded → none; marker → that directory; cluster with at least
two valid members → the LCA; source-directory set supplied → the orphanage;
otherwise the parent (or the path itself when it has no parent).  Written
from the spec, to be compared with `find_root`. -/
def specResolve (fs : FS) (cfg : Config) (source : Path)
    (source_dirs : Option (List Path)) (cluster : Option (List Path)) :
    Option Path :=
  if (is_excluded fs cfg source none).1 then none
  else
    match find_marker_root fs cfg source with
    | some root => some root
    | none =>
      let fallback : Option Path :=
        match source_dirs with
        | some dirs => some (find_orphanage source dirs)
        | none => some ((parentOf source).getD source)
      match cluster with
      | some cl =>
        let valid := cl.filter (fun f => !(is_excluded fs cfg f none).1)
        if 2 ≤ valid.length then compute_lca fs valid else fallback
      | none => fallback

/-- The LCA computation as claim C4 words it: for each path that
canonicalizes, the ancestor chain built from the path's own DIRECTORY (its
parent) up to the root — not from the path itself.  Written from the claim,
to be compared with `compute_lca`. -/
def compute_lca_spec (fs : FS) (paths : List Path) : Option Path :=
  let chains := paths.filterMap (fun p =>
    (fs.canon p).map (fun r =>
      match parentOf r with
      | some d => ancestorsOf d
      | none => ([] : List Path)))
  match chains with
  | [] => none
  | c :: cs =>
    deepestOf (cs.foldl (fun acc chain => acc.filter (fun a => decide (a ∈ chain))) c)

/-! ## Helper lemmas: ancestor chains -/

theorem parentOf_concat (q : Path) (x : OsStr) : parentOf (q ++ [x]) = some q := by
  cases q with
  | nil => rfl
  | cons y ys =>
    show some ((y :: (ys ++ [x])).dropLast) = some (y :: ys)
    rw [← List.cons_append, List.dropLast_concat]

theorem ancestorsOf_nil : ancestorsOf [] = [[]] := rfl

theorem ancestorsOf_concat (q : Path) (x : OsStr) :
    ancestorsOf (q ++ [x]) = (q ++ [x]) :: ancestorsOf q := by
  unfold ancestorsOf
  have hlen : (q ++ [x]).length = q.length + 1 := by simp
  rw [hlen]
  simp only [parentChain, parentOf_concat]

theorem self_mem_ancestorsOf (p : Path) : p ∈ ancestorsOf p := by
  induction p using List.reverseRecOn with
  | nil => simp [ancestorsOf_nil]
  | append_singleton q x ih =>
    rw [ancestorsOf_concat]
    exact List.mem_cons_self _ _

theorem root_mem_ancestorsOf (p : Path) : ([] : Path) ∈ ancestorsOf p := by
  induction p using List.reverseRecOn with
  | nil => simp [ancestorsOf_nil]
  | append_singleton q x ih =>
    rw [ancestorsOf_concat]
    exact List.mem_cons_of_mem _ ih

theorem length_le_of_mem_ancestorsOf {q p : Path} (h : q ∈ ancestorsOf p) :
    q.length ≤ p.length := by
  induction p using List.reverseRecOn with
  | nil => simp [ancestorsOf_nil] at h; simp [h]
  | append_singleton l x ih =>
    rw [ancestorsOf_concat] at h
    rcases List.mem_cons.mp h with h1 | h2
    · simp [h1]
    · have := ih h2
      simp only [List.length_append, List.length_singleton]
      omega

theorem ancestorsOf_pairwise (p : Path) :
    (ancestorsOf p).Pairwise (fun a b => b.length < a.length) := by
  induction p using List.reverseRecOn with
  | nil => simp [ancestorsOf_nil]
  | append_singleton q x ih =>
    rw [ancestorsOf_concat]
    refine List.pairwise_cons.mpr ⟨?_, ih⟩
    intro y hy
    have := length_le_of_mem_ancestorsOf hy
    simp only [List.length_append, List.length_singleton]
    omega

/-! ## Helper lemmas: deepest element and chain intersection -/

theorem deepestOf_eq_none_iff {l : List Path} : deepestOf l = none ↔ l = [] := by
  cases l with
  | nil => simp [deepestOf]
  | cons p ps =>
    simp only [deepestOf]
    constructor
    · intro h
      cases hd : deepestOf ps with
      | none => rw [hd] at h; simp at h
      | some q => rw [hd] at h; by_cases hq : q.length > p.length <;> simp [hq] at h
    · intro h; exact absurd h (List.cons_ne_nil p ps)

theorem deepestOf_spec {l : List Path} :
    ∀ {q : Path}, deepestOf l = some q → q ∈ l ∧ ∀ p ∈ l, p.length ≤ q.length := by
  induction l with
  | nil => intro q h; simp [deepestOf] at h
  | cons p ps ih =>
    intro q h
    simp only [deepestOf] at h
    cases hd : deepestOf ps with
    | none =>
      rw [hd] at h
      have hps : ps = [] := deepestOf_eq_none_iff.mp hd
      simp at h
      subst h hps
      simp
    | some q0 =>
      rw [hd] at h
      obtain ⟨hq0, hmax⟩ := ih hd
      by_cases hcmp : q0.length > p.length
      · simp [hcmp] at h
        subst h
        exact ⟨List.mem_cons_of_mem p hq0, by
          intro x hx
          rcases List.mem_cons.mp hx with h1 | h2
          · subst h1; omega
          · exact hmax x h2⟩
      · simp [hcmp] at h
        subst h
        exact ⟨List.mem_cons_self _ _, by
          intro x hx
          rcases List.mem_cons.mp hx with h1 | h2
          · subst h1; omega
          · have := hmax x h2; omega⟩

theorem mem_foldl_inter {a : Path} (cs : List (List Path)) (acc : List Path) :
    a ∈ cs.foldl (fun acc chain => acc.filter (fun x => decide (x ∈ chain))) acc ↔
      a ∈ acc ∧ ∀ ch ∈ cs, a ∈ ch := by
  induction cs generalizing acc with
  | nil => simp
  | cons c cs ih =>
    simp only [List.foldl_cons]
    rw [ih]
    simp only [List.mem_filter, decide_eq_true_eq, List.mem_cons]
    constructor
    · rintro ⟨⟨ha, hc⟩, hall⟩
      refine ⟨ha, ?_⟩
      intro ch hch
      rcases hch with h1 | h2
      · subst h1; exact hc
      · exact hall ch h2
    · rintro ⟨ha, hall⟩
      exact ⟨⟨ha, hall c (Or.inl rfl)⟩, fun ch hch => hall ch (Or.inr hch)⟩

/-! ## Helper lemmas: exclusion checks -/

theorem is_excluded_none_snd (fs : FS) (cfg : Config) (p : Path) :
    (is_excluded fs cfg p none).2 = none := by
  unfold is_excluded
  cases fs.canon p <;> rfl

theorem is_excluded_canon_none {fs : FS} {cfg : Config} {p : Path}
    (cache : Option ExclusionCache) (h : fs.canon p = none) :
    (is_excluded fs cfg p cache).1 = true := by
  unfold is_excluded
  rw [h]

theorem is_excluded_none_eq {fs : FS} {cfg : Config} {p r : Path}
    (h : fs.canon p = some r) :
    (is_excluded fs cfg p none).1 = exclusionVerdict cfg r := by
  unfold is_excluded
  rw [h]

theorem canon_some_of_not_excluded {fs : FS} {cfg : Config} {p : Path}
    (h : (is_excluded fs cfg p none).1 = false) :
    ∃ r, fs.canon p = some r := by
  cases hc : fs.canon p with
  | none => rw [is_excluded_canon_none none hc] at h; cases h
  | some r => exact ⟨r, rfl⟩

theorem filterValid_none (fs : FS) (cfg : Config) (l : List Path) :
    filterValid fs cfg l none =
      (l.filter (fun p => !(is_excluded fs cfg p none).1), none) := by
  induction l with
  | nil => rfl
  | cons p ps ih =>
    simp only [filterValid, is_excluded_none_snd, ih, List.filter_cons]
    cases h : (is_excluded fs cfg p none).1 <;> simp [h]

/-! ## Helper lemmas: the LCA computation -/

theorem chain_of_mem_chains {fs : FS} {l : List Path} {c : List Path}
    (h : c ∈ l.filterMap (fun p => (fs.canon p).map ancestorsOf)) :
    ∃ p r, p ∈ l ∧ fs.canon p = some r ∧ c = ancestorsOf r := by
  obtain ⟨p, hp, hmap⟩ := List.mem_filterMap.mp h
  cases hcanon : fs.canon p with
  | none => rw [hcanon] at hmap; cases hmap
  | some r =>
    rw [hcanon] at hmap
    simp only [Option.map_some', Option.some.injEq] at hmap
    exact ⟨p, r, hp, hcanon, hmap.symm⟩

theorem compute_lca_isSome {fs : FS} {cfg : Config} {l : List Path}
    (hne : l ≠ [])
    (hall : ∀ p ∈ l, (is_excluded fs cfg p none).1 = false) :
    ∃ x, compute_lca fs l = some x := by
  unfold compute_lca
  cases hch : l.filterMap (fun p => (fs.canon p).map ancestorsOf) with
  | nil =>
    obtain ⟨p0, hp0⟩ : ∃ p0, p0 ∈ l := by
      cases l with
      | nil => exact absurd rfl hne
      | cons x xs => exact ⟨x, List.mem_cons_self _ _⟩
    obtain ⟨r0, hr0⟩ := canon_some_of_not_excluded (hall p0 hp0)
    have hmem : ancestorsOf r0 ∈ l.filterMap (fun p => (fs.canon p).map ancestorsOf) :=
      List.mem_filterMap.mpr ⟨p0, hp0, by rw [hr0]; rfl⟩
    rw [hch] at hmem
    cases hmem
  | cons c cs =>
    have hroot : ([] : Path) ∈
        cs.foldl (fun acc chain => acc.filter (fun x => decide (x ∈ chain))) c := by
      rw [mem_foldl_inter]
      constructor
      · have hc : c ∈ l.filterMap (fun p => (fs.canon p).map ancestorsOf) := by
          rw [hch]; exact List.mem_cons_self _ _
        obtain ⟨p, r, _, _, hcr⟩ := chain_of_mem_chains hc
        rw [hcr]; exact root_mem_ancestorsOf r
      · intro ch hch2
        have hc : ch ∈ l.filterMap (fun p => (fs.canon p).map ancestorsOf) := by
          rw [hch]; exact List.mem_cons_of_mem _ hch2
        obtain ⟨p, r, _, _, hcr⟩ := chain_of_mem_chains hc
        rw [hcr]; exact root_mem_ancestorsOf r
    cases hdeep : deepestOf
        (cs.foldl (fun acc chain => acc.filter (fun x => decide (x ∈ chain))) c) with
    | none =>
      rw [deepestOf_eq_none_iff] at hdeep
      rw [hdeep] at hroot
      cases hroot
    | some x => exact ⟨x, hdeep⟩

/-! ## Helper lemmas: cache coherence -/

/-- A cache is coherent when every entry holds the verdict the exclusion
computation would produce for its key — exactly the caches built by earlier
resolutions over the same unchanged filesystem (entries are only ever
inserted as `(resolved, exclusionVerdict cfg resolved)`). -/
def Coherent (cfg : Config) (c : ExclusionCache) : Prop :=
  ∀ p b, c.find p = some b → b = exclusionVerdict cfg p

theorem coherent_new (cfg : Config) : Coherent cfg ExclusionCache.new := by
  intro p b h
  simp [ExclusionCache.new, ExclusionCache.find] at h

theorem find_insert (c : ExclusionCache) (p q : Path) (v : Bool) :
    (c.insert p v).find q = if q = p then some v else c.find q := by
  unfold ExclusionCache.insert ExclusionCache.find
  by_cases h : q = p
  · subst h
    rw [List.find?_cons_of_pos _ (by simp)]
    simp
  · rw [List.find?_cons_of_neg _ (by simp [Ne.symm h])]
    rw [if_neg h]

theorem coherent_insert {cfg : Config} {c : ExclusionCache} {p : Path} {v : Bool}
    (hc : Coherent cfg c) (h : v = exclusionVerdict cfg p) :
    Coherent cfg (c.insert p v) := by
  intro q b hb
  rw [find_insert] at hb
  by_cases hq : q = p
  · rw [if_pos hq] at hb
    cases hb
    rw [h, hq]
  · rw [if_neg hq] at hb
    exact hc q b hb

/-- The invariant threaded through every resolution: either no cache, or a
coherent one. -/
def CacheOK (cfg : Config) : Option ExclusionCache → Prop
  | none => True
  | some c => Coherent cfg c

theorem cacheOK_none (cfg : Config) : CacheOK cfg none := trivial

theorem is_excluded_ok {fs : FS} {cfg : Config} {cache : Option ExclusionCache}
    (h : CacheOK cfg cache) (p : Path) :
    (is_excluded fs cfg p cache).1 = (is_excluded fs cfg p none).1 ∧
      CacheOK cfg (is_excluded fs cfg p cache).2 := by
  cases cache with
  | none =>
    refine ⟨rfl, ?_⟩
    rw [is_excluded_none_snd]
    trivial
  | some c =>
    cases hcanon : fs.canon p with
    | none =>
      constructor
      · simp only [is_excluded, hcanon]
      · simp only [is_excluded, hcanon]
        exact h
    | some r =>
      cases hfind : c.find r with
      | some b =>
        constructor
        · simp only [is_excluded, hcanon, hfind]
          exact h r b hfind
        · simp only [is_excluded, hcanon, hfind]
          exact h
      | none =>
        constructor
        · simp only [is_excluded, hcanon, hfind]
        · simp only [is_excluded, hcanon, hfind]
          exact coherent_insert h rfl

theorem filterValid_ok {fs : FS} {cfg : Config} (l : List Path) :
    ∀ {cache : Option ExclusionCache}, CacheOK cfg cache →
      (filterValid fs cfg l cache).1 =
          l.filter (fun p => !(is_excluded fs cfg p none).1) ∧
        CacheOK cfg (filterValid fs cfg l cache).2 := by
  induction l with
  | nil => intro cache h; exact ⟨rfl, h⟩
  | cons p ps ih =>
    intro cache h
    obtain ⟨h1, hok1⟩ := is_excluded_ok h p
    obtain ⟨g1, hok2⟩ := ih hok1
    simp only [filterValid]
    refine ⟨?_, hok2⟩
    rw [g1, h1, List.filter_cons]
    cases hb : (is_excluded fs cfg p none).1 <;> simp [hb]

theorem resolve_ok {fs : FS} {cfg : Config} (source : Path)
    (dirs : Option (List Path)) (cluster : Option (List Path))
    {cache : Option ExclusionCache} (h : CacheOK cfg cache) :
    (find_root_with_cache fs cfg source dirs cluster cache).1 =
      specResolve fs cfg source dirs cluster := by
  obtain ⟨h1, hok1⟩ := @is_excluded_ok fs cfg cache h source
  simp only [find_root_with_cache, specResolve, h1]
  by_cases hex : (is_excluded fs cfg source none).1 = true
  · rw [if_pos hex, if_pos hex]
  · rw [if_neg hex, if_neg hex]
    cases hm : find_marker_root fs cfg source with
    | some root => rfl
    | none =>
      cases cluster with
      | none => cases dirs <;> rfl
      | some cl =>
        obtain ⟨g1, hok2⟩ := @filterValid_ok fs cfg cl _ hok1
        dsimp only
        rw [g1]
        by_cases hlen :
            1 < (cl.filter (fun p => !(is_excluded fs cfg p none).1)).length
        · rw [if_pos hlen, if_pos (by omega)]
          obtain ⟨x, hx⟩ := @compute_lca_isSome fs cfg
            (cl.filter (fun p => !(is_excluded fs cfg p none).1))
            (by intro hnil; rw [hnil] at hlen; simp at hlen)
            (by
              intro q hq
              have hq2 := (List.mem_filter.mp hq).2
              simpa using hq2)
          rw [hx]
        · rw [if_neg hlen, if_neg (by omega)]
          cases dirs <;> rfl

/-! ## Helper lemmas: marker ascent -/

theorem markerAscend_stop {fs : FS} {cfg : Config} (pre : List Path) (d : Path)
    (post : List Path)
    (hpre : ∀ x ∈ pre, exclStop cfg x = false ∧ cfg.marker_exists_in fs x = false)
    (hd : exclStop cfg d = true) :
    markerAscend fs cfg (pre ++ d :: post) = none := by
  induction pre with
  | nil => simp [markerAscend, hd]
  | cons x xs ih =>
    have hx := hpre x (List.mem_cons_self _ _)
    simp only [List.cons_append, markerAscend, hx.1, hx.2]
    simp only [Bool.false_eq_true, if_false]
    exact ih (fun y hy => hpre y (List.mem_cons_of_mem _ hy))

theorem markerAscend_inner {fs : FS} {cfg : Config} (pre : List Path)
    (inner : Path) (post : List Path)
    (hpre : ∀ x ∈ pre, exclStop cfg x = false ∧ cfg.marker_exists_in fs x = false)
    (hni : exclStop cfg inner = false)
    (hmi : cfg.marker_exists_in fs inner = true) :
    markerAscend fs cfg (pre ++ inner :: post) = some inner := by
  induction pre with
  | nil => simp [markerAscend, hni, hmi]
  | cons x xs ih =>
    have hx := hpre x (List.mem_cons_self _ _)
    simp only [List.cons_append, markerAscend, hx.1, hx.2]
    simp only [Bool.false_eq_true, if_false]
    exact ih (fun y hy => hpre y (List.mem_cons_of_mem _ hy))

/-! ## Helper lemmas: the orphanage walk -/

theorem getLast_filter_min {l : List Path}
    (hl : l.Pairwise (fun a b => b.length < a.length)) (pred : Path → Bool) :
    ∀ {g}, (l.filter pred).getLast? = some g →
      g ∈ l ∧ pred g = true ∧ ∀ a ∈ l, pred a = true → g.length ≤ a.length := by
  induction l with
  | nil => intro g h; simp at h
  | cons x xs ih =>
    intro g h
    have hlt := (List.pairwise_cons.mp hl).1
    have hl2 := (List.pairwise_cons.mp hl).2
    rw [List.filter_cons] at h
    by_cases hx : pred x = true
    · rw [if_pos hx] at h
      cases hxs : xs.filter pred with
      | nil =>
        rw [hxs] at h
        simp at h
        subst h
        refine ⟨List.mem_cons_self _ _, hx, ?_⟩
        intro a ha hpa
        rcases List.mem_cons.mp ha with h1 | h2
        · rw [h1]
        · exfalso
          have hmem : a ∈ xs.filter pred := List.mem_filter.mpr ⟨h2, hpa⟩
          rw [hxs] at hmem
          cases hmem
      | cons y ys =>
        rw [hxs, List.getLast?_cons_cons, ← hxs] at h
        obtain ⟨hg1, hg2, hg3⟩ := ih hl2 h
        refine ⟨List.mem_cons_of_mem _ hg1, hg2, ?_⟩
        intro a ha hpa
        rcases List.mem_cons.mp ha with h1 | h2
        · have := hlt g hg1
          rw [h1]
          omega
        · exact hg3 a h2 hpa
    · rw [if_neg hx] at h
      obtain ⟨hg1, hg2, hg3⟩ := ih hl2 h
      refine ⟨List.mem_cons_of_mem _ hg1, hg2, ?_⟩
      intro a ha hpa
      rcases List.mem_cons.mp ha with h1 | h2
      · exact absurd (h1 ▸ hpa) hx
      · exact hg3 a h2 hpa

/-! ## Helper lemmas: the exclusion verdict on components -/

theorem exclusionVerdict_eq_false {cfg : Config} {r : Path}
    (h : ∀ s, OsStr.utf8 s ∈ r → cfg.matches_exclusion s = false) :
    exclusionVerdict cfg r = false := by
  unfold exclusionVerdict
  rw [List.any_eq_false]
  intro s hs
  obtain ⟨a, ha, hsa⟩ := List.mem_filterMap.mp hs
  cases a with
  | utf8 t =>
    have hts : t = s := by simpa [OsStr.toStr] using hsa
    rw [h s (hts ▸ ha)]
    simp
  | raw bytes => simp [OsStr.toStr] at hsa

theorem exclusionVerdict_eq_true {cfg : Config} {r : Path} {s : String}
    (hs : OsStr.utf8 s ∈ r) (hm : cfg.matches_exclusion s = true) :
    exclusionVerdict cfg r = true := by
  unfold exclusionVerdict
  rw [List.any_eq_true]
  exact ⟨s, List.mem_filterMap.mpr ⟨OsStr.utf8 s, hs, rfl⟩, hm⟩

/-! ## Helper lemmas: the batch source-directory computation -/

theorem is_excluded_some_snd (fs : FS) (cfg : Config) (p : Path)
    (c : ExclusionCache) :
    ∃ c1, (is_excluded fs cfg p (some c)).2 = some c1 := by
  cases hcanon : fs.canon p with
  | none => exact ⟨c, by simp only [is_excluded, hcanon]⟩
  | some r =>
    cases hfind : c.find r with
    | some b => exact ⟨c, by simp only [is_excluded, hcanon, hfind]⟩
    | none =>
      exact ⟨c.insert r (exclusionVerdict cfg r),
        by simp only [is_excluded, hcanon, hfind]⟩

theorem batchSourceDirs_ok {fs : FS} {cfg : Config} (files : List Path) :
    ∀ {c : ExclusionCache}, Coherent cfg c →
      (∀ d, d ∈ (batchSourceDirs fs cfg files c).1 ↔
          ∃ f ∈ files, (is_excluded fs cfg f none).1 = false ∧ parentOf f = some d) ∧
        Coherent cfg (batchSourceDirs fs cfg files c).2 := by
  induction files with
  | nil =>
    intro c hc
    refine ⟨?_, hc⟩
    intro d
    simp [batchSourceDirs]
  | cons f rest ih =>
    intro c hc
    obtain ⟨h1, hok1⟩ := @is_excluded_ok fs cfg (some c) hc f
    obtain ⟨c1, hc1eq⟩ := is_excluded_some_snd fs cfg f c
    rw [hc1eq] at hok1
    obtain ⟨hmem, hcoh⟩ := @ih c1 hok1
    simp only [batchSourceDirs, hc1eq, Option.getD_some, h1]
    refine ⟨?_, hcoh⟩
    intro d
    cases hex : (is_excluded fs cfg f none).1 with
    | true =>
      simp only [if_true]
      rw [hmem d]
      constructor
      · rintro ⟨g, hg, hgex, hgp⟩
        exact ⟨g, List.mem_cons_of_mem _ hg, hgex, hgp⟩
      · rintro ⟨g, hg, hgex, hgp⟩
        rcases List.mem_cons.mp hg with h2 | h2
        · rw [h2] at hgex; rw [hex] at hgex; cases hgex
        · exact ⟨g, h2, hgex, hgp⟩
    | false =>
      simp only [Bool.false_eq_true, if_false]
      cases hp : parentOf f with
      | some pd =>
        rw [List.mem_cons, hmem d]
        constructor
        · rintro (h2 | ⟨g, hg, hgex, hgp⟩)
          · exact ⟨f, List.mem_cons_self _ _, hex, by rw [hp, h2]⟩
          · exact ⟨g, List.mem_cons_of_mem _ hg, hgex, hgp⟩
        · rintro ⟨g, hg, hgex, hgp⟩
          rcases List.mem_cons.mp hg with h2 | h2
          · left
            rw [h2] at hgp
            rw [hp] at hgp
            exact (Option.some.injEq _ _ ▸ hgp).symm
          · right
            exact ⟨g, h2, hgex, hgp⟩
      | none =>
        rw [hmem d]
        constructor
        · rintro ⟨g, hg, hgex, hgp⟩
          exact ⟨g, List.mem_cons_of_mem _ hg, hgex, hgp⟩
        · rintro ⟨g, hg, hgex, hgp⟩
          rcases List.mem_cons.mp hg with h2 | h2
          · rw [h2, hp] at hgp; cases hgp
          · exact ⟨g, h2, hgex, hgp⟩

/-! ## Concrete fixtures used by the witnesses -/

/-- A standard configuration: one exclusion name, two marker names,
case-sensitive. -/
def cfgStd : Config := ⟨["node_modules"], [".git", "package.json"], false⟩

/-- A symlink-free filesystem over a small monorepo:
`/proj/.git`, `/proj/package.json`, `/proj/packages/api/package.json`. -/
def fsProj : FS :=
  { canon := fun p => some p,
    pathExists := fun q =>
      decide (q = [OsStr.utf8 "proj", OsStr.utf8 ".git"]) ||
        decide (q = [OsStr.utf8 "proj", OsStr.utf8 "package.json"]) ||
        decide (q = [OsStr.utf8 "proj", OsStr.utf8 "packages", OsStr.utf8 "api",
          OsStr.utf8 "package.json"]),
    readDir := fun _ => none }

/-- A filesystem on which every canonicalization fails. -/
def fsUnresolvable : FS :=
  { canon := fun _ => none,
    pathExists := fun _ => false,
    readDir := fun _ => none }

/-- The UTF-8 bytes of the exclusion name `node_modules`, used as a raw
(invalid-UTF-8-marked) component. -/
def nodeModulesBytes : List Nat :=
  [110, 111, 100, 101, 95, 109, 111, 100, 117, 108, 101, 115]

/-- A filesystem where `/lnk` canonicalizes to a path whose first component
is a raw OS string carrying exactly the bytes of `node_modules`. -/
def fsRawComponent : FS :=
  { canon := fun p =>
      if p = [OsStr.utf8 "lnk"] then
        some [OsStr.raw nodeModulesBytes, OsStr.utf8 "f"]
      else none,
    pathExists := fun _ => false,
    readDir := fun _ => none }

/-! ## The claims -/

/-- C1: for every file, source-directory set, dependency cluster and
configuration, `find_root` (that is, `find_root_with_cache` with no cache)
evaluates exactly the spec's cascade in strict order: excluded → none;
marker root found → that directory; dependency cluster supplied with at
least two valid (non-excluded) members → the cluster's LCA; source-directory
set supplied → the orphanage; otherwise the file's immediate parent (or the
path itself when it has no parent).  Stated as equality with `specResolve`,
the cascade transcribed from the spec's own words; the proof in particular
shows the LCA case always produces a result for two or more valid members,
so the spec's "→ LCA" step never silently falls through. -/
theorem claim1_cascade_order (fs : FS) (cfg : Config) (source : Path)
    (source_dirs : Option (List Path)) (cluster : Option (List Path)) :
    find_root fs cfg source source_dirs cluster =
      specResolve fs cfg source source_dirs cluster :=
  resolve_ok source source_dirs cluster (cacheOK_none cfg)

/-- C2: a file below an exclusion boundary resolves to "excluded" (`none`),
and the marker ascent stops with no marker found at the first directory
whose base name matches an exclusion name — a marker above the boundary is
never returned.  The hypotheses describe one such file: its canonical form
contains an exclusion-matching component, and its ancestor chain is split as
`pre ++ d :: post` where `d` is the first exclusion-matching directory and
the directories below it hold no marker. -/
theorem claim2_exclusion_dominance (fs : FS) (cfg : Config) (source : Path)
    (source_dirs : Option (List Path)) (cluster : Option (List Path))
    (r : Path) (s : String) (par : Path) (pre : List Path) (d : Path)
    (post : List Path)
    (hcanon : fs.canon source = some r)
    (hs : OsStr.utf8 s ∈ r)
    (hmatch : cfg.matches_exclusion s = true)
    (hpar : parentOf source = some par)
    (hchain : ancestorsOf par = pre ++ d :: post)
    (hpre : ∀ x ∈ pre, exclStop cfg x = false ∧ cfg.marker_exists_in fs x = false)
    (hd : exclStop cfg d = true) :
    find_root fs cfg source source_dirs cluster = none ∧
      find_marker_root fs cfg source = none := by
  have hm : find_marker_root fs cfg source = none := by
    unfold find_marker_root
    rw [hpar]
    show markerAscend fs cfg (ancestorsOf par) = none
    rw [hchain]
    exact markerAscend_stop pre d post hpre hd
  refine ⟨?_, hm⟩
  have hex : (is_excluded fs cfg source none).1 = true := by
    rw [is_excluded_none_eq hcanon]
    exact exclusionVerdict_eq_true hs hmatch
  show (find_root_with_cache fs cfg source source_dirs cluster none).1 = none
  rw [resolve_ok source source_dirs cluster (cacheOK_none cfg)]
  unfold specResolve
  rw [hex]
  simp

/-- C2 witness: the file `/proj/node_modules/pkg/f` under the exclusion
boundary `/proj/node_modules`, with a `.git` marker above at `/proj`:
resolution is "excluded" and the marker ascent finds nothing. -/
theorem claim2_witness :
    find_root fsProj cfgStd
        [OsStr.utf8 "proj", OsStr.utf8 "node_modules", OsStr.utf8 "pkg",
          OsStr.utf8 "f"] none none = none ∧
      find_marker_root fsProj cfgStd
        [OsStr.utf8 "proj", OsStr.utf8 "node_modules", OsStr.utf8 "pkg",
          OsStr.utf8 "f"] = none :=
  claim2_exclusion_dominance fsProj cfgStd
    [OsStr.utf8 "proj", OsStr.utf8 "node_modules", OsStr.utf8 "pkg", OsStr.utf8 "f"]
    none none
    [OsStr.utf8 "proj", OsStr.utf8 "node_modules", OsStr.utf8 "pkg", OsStr.utf8 "f"]
    "node_modules"
    [OsStr.utf8 "proj", OsStr.utf8 "node_modules", OsStr.utf8 "pkg"]
    [[OsStr.utf8 "proj", OsStr.utf8 "node_modules", OsStr.utf8 "pkg"]]
    [OsStr.utf8 "proj", OsStr.utf8 "node_modules"]
    [[OsStr.utf8 "proj"], []]
    (by decide) (by decide) (by decide) (by decide) (by decide) (by decide)
    (by decide)

/-- C3: innermost-wins.  When a file's ancestor chain, before any exclusion
boundary, holds a configured marker both at an inner directory (closest to
the file) and at an outer one further up, `find_marker_root` returns the
inner directory: the chain splits as `pre ++ inner :: post` with `pre`
marker-free and exclusion-free, `inner` marked and not an exclusion
boundary, and some marked `outer` in `post`. -/
theorem claim3_innermost_wins (fs : FS) (cfg : Config) (source : Path)
    (par : Path) (pre : List Path) (inner : Path) (post : List Path)
    (hpar : parentOf source = some par)
    (hchain : ancestorsOf par = pre ++ inner :: post)
    (hpre : ∀ x ∈ pre, exclStop cfg x = false ∧ cfg.marker_exists_in fs x = false)
    (hinner_clear : exclStop cfg inner = false)
    (hinner : cfg.marker_exists_in fs inner = true)
    (houter : ∃ outer ∈ post, cfg.marker_exists_in fs outer = true) :
    find_marker_root fs cfg source = some inner := by
  unfold find_marker_root
  rw [hpar]
  show markerAscend fs cfg (ancestorsOf par) = some inner
  rw [hchain]
  exact markerAscend_inner pre inner post hpre hinner_clear hinner

/-- C3 witness: `/proj/packages/api/src/idx` with `package.json` at
`/proj/packages/api` (inner) and `.git` at `/proj` (outer) resolves to the
inner directory `/proj/packages/api`. -/
theorem claim3_witness :
    find_marker_root fsProj cfgStd
        [OsStr.utf8 "proj", OsStr.utf8 "packages", OsStr.utf8 "api",
          OsStr.utf8 "src", OsStr.utf8 "idx"] =
      some [OsStr.utf8 "proj", OsStr.utf8 "packages", OsStr.utf8 "api"] :=
  claim3_innermost_wins fsProj cfgStd
    [OsStr.utf8 "proj", OsStr.utf8 "packages", OsStr.utf8 "api",
      OsStr.utf8 "src", OsStr.utf8 "idx"]
    [OsStr.utf8 "proj", OsStr.utf8 "packages", OsStr.utf8 "api", OsStr.utf8 "src"]
    [[OsStr.utf8 "proj", OsStr.utf8 "packages", OsStr.utf8 "api", OsStr.utf8 "src"]]
    [OsStr.utf8 "proj", OsStr.utf8 "packages", OsStr.utf8 "api"]
    [[OsStr.utf8 "proj", OsStr.utf8 "packages"], [OsStr.utf8 "proj"], []]
    (by decide) (by decide) (by decide) (by decide) (by decide) (by decide)

/-- C6: when canonical resolution fails, `is_excluded` answers true — the
path is treated as excluded — whatever the cache state; and no exception
exists: `is_excluded` is a total function into `Bool`, so every outcome is a
boolean by construction. -/
theorem claim6_unresolvable_is_excluded (fs : FS) (cfg : Config) (path : Path)
    (cache : Option ExclusionCache) (h : fs.canon path = none) :
    (is_excluded fs cfg path cache).1 = true :=
  is_excluded_canon_none cache h

/-- C6 witness: on a filesystem where resolution fails, a concrete path is
excluded. -/
theorem claim6_witness :
    (is_excluded fsUnresolvable cfgStd [OsStr.utf8 "ghost"] none).1 = true :=
  claim6_unresolvable_is_excluded fsUnresolvable cfgStd [OsStr.utf8 "ghost"]
    none (by decide)

/-- C9: a component of the canonical path that is not valid UTF-8 is
silently skipped by the exclusion test: when every valid-UTF-8 component
fails to match an exclusion name, the path is not excluded — no matter what
raw (non-UTF-8) components it contains, even one whose byte sequence equals
an exclusion name's bytes. -/
theorem claim9_raw_components_skipped (fs : FS) (cfg : Config) (path r : Path)
    (hcanon : fs.canon path = some r)
    (h : ∀ s, OsStr.utf8 s ∈ r → cfg.matches_exclusion s = false) :
    (is_excluded fs cfg path none).1 = false := by
  rw [is_excluded_none_eq hcanon]
  exact exclusionVerdict_eq_false h

/-- C9 witness: `/lnk` canonicalizes to a path whose first component is raw
bytes spelling exactly `node_modules` (an exclusion name of the
configuration), yet the path is not excluded. -/
theorem claim9_witness :
    (is_excluded fsRawComponent cfgStd [OsStr.utf8 "lnk"] none).1 = false ∧
      cfgStd.matches_exclusion "node_modules" = true :=
  ⟨claim9_raw_components_skipped fsRawComponent cfgStd [OsStr.utf8 "lnk"]
      [OsStr.raw nodeModulesBytes, OsStr.utf8 "f"] (by decide)
      (by
        intro s hs
        rcases List.mem_cons.mp hs with h1 | h2
        · exact absurd h1 (by simp)
        · have hsf : s = "f" := by
            have h3 := List.mem_singleton.mp h2
            simpa using h3
          rw [hsf]
          decide),
    by decide⟩

/-- C10: each additive builder touches only its own set: `with_markers`
yields the membership-union on markers and leaves exclusions and the case
flag untouched; `with_exclusions` symmetrically. -/
theorem claim10_builders_frame (cfg : Config) (names : List String) :
    (∀ s, s ∈ (cfg.with_markers names).markers ↔
        s ∈ cfg.markers ∨ s ∈ names) ∧
      (cfg.with_markers names).exclusions = cfg.exclusions ∧
      (cfg.with_markers names).case_insensitive = cfg.case_insensitive ∧
      (∀ s, s ∈ (cfg.with_exclusions names).exclusions ↔
        s ∈ cfg.exclusions ∨ s ∈ names) ∧
      (cfg.with_exclusions names).markers = cfg.markers ∧
      (cfg.with_exclusions names).case_insensitive = cfg.case_insensitive := by
  refine ⟨?_, rfl, rfl, ?_, rfl, rfl⟩ <;>
    intro s <;>
    simp [Config.with_markers, Config.with_exclusions]

/-- C5: `find_orphanage` walks from the file's parent upward collecting the
ancestors belonging to the source-directory set; when at least one ancestor
qualifies it returns the qualifying ancestor farthest from the file (closest
to the root, i.e. of minimal component count among the qualifying ones), and
when none qualifies it returns the file's immediate parent. -/
theorem claim5_orphanage_resolution (source : Path) (source_dirs : List Path)
    (par : Path) (hpar : parentOf source = some par) :
    ((∀ a ∈ ancestorsOf par, a ∉ source_dirs) →
        find_orphanage source source_dirs = par) ∧
      ∀ a0 ∈ ancestorsOf par, a0 ∈ source_dirs →
        find_orphanage source source_dirs ∈ source_dirs ∧
          find_orphanage source source_dirs ∈ ancestorsOf par ∧
          ∀ a ∈ ancestorsOf par, a ∈ source_dirs →
            (find_orphanage source source_dirs).length ≤ a.length := by
  have hpar2 : (parentOf source).getD source = par := by
    rw [hpar]
    rfl
  constructor
  · intro hnone
    have hfil : (ancestorsOf par).filter (fun a => decide (a ∈ source_dirs)) = [] := by
      rw [List.filter_eq_nil_iff]
      intro a ha
      simp [hnone a ha]
    simp only [find_orphanage]
    rw [hpar2, hfil]
    rfl
  · intro a0 ha0 ha0d
    have hmem : a0 ∈ (ancestorsOf par).filter (fun a => decide (a ∈ source_dirs)) :=
      List.mem_filter.mpr ⟨ha0, by simpa⟩
    cases hg : ((ancestorsOf par).filter (fun a => decide (a ∈ source_dirs))).getLast? with
    | none =>
      rw [List.getLast?_eq_none_iff] at hg
      rw [hg] at hmem
      exact absurd hmem (List.not_mem_nil a0)
    | some g =>
      obtain ⟨hg1, hg2, hg3⟩ := getLast_filter_min (ancestorsOf_pairwise par) _ hg
      have hres : find_orphanage source source_dirs = g := by
        simp only [find_orphanage]
        rw [hpar2, hg]
      rw [hres]
      refine ⟨by simpa using hg2, hg1, ?_⟩
      intro a ha had
      exact hg3 a ha (by simpa)

/-- C5 witness: for `/proj/app/f` with source directories `/proj` and
`/proj/app`, the orphanage is a qualifying ancestor of minimal length (it
evaluates to `/proj`, the outermost). -/
theorem claim5_witness :
    find_orphanage [OsStr.utf8 "proj", OsStr.utf8 "app", OsStr.utf8 "f"]
          [[OsStr.utf8 "proj"], [OsStr.utf8 "proj", OsStr.utf8 "app"]] ∈
        [[OsStr.utf8 "proj"], [OsStr.utf8 "proj", OsStr.utf8 "app"]] ∧
      find_orphanage [OsStr.utf8 "proj", OsStr.utf8 "app", OsStr.utf8 "f"]
          [[OsStr.utf8 "proj"], [OsStr.utf8 "proj", OsStr.utf8 "app"]] ∈
        ancestorsOf [OsStr.utf8 "proj", OsStr.utf8 "app"] ∧
      ∀ a ∈ ancestorsOf [OsStr.utf8 "proj", OsStr.utf8 "app"],
        a ∈ [[OsStr.utf8 "proj"], [OsStr.utf8 "proj", OsStr.utf8 "app"]] →
          (find_orphanage [OsStr.utf8 "proj", OsStr.utf8 "app", OsStr.utf8 "f"]
            [[OsStr.utf8 "proj"], [OsStr.utf8 "proj", OsStr.utf8 "app"]]).length ≤
            a.length :=
  (claim5_orphanage_resolution
      [OsStr.utf8 "proj", OsStr.utf8 "app", OsStr.utf8 "f"]
      [[OsStr.utf8 "proj"], [OsStr.utf8 "proj", OsStr.utf8 "app"]]
      [OsStr.utf8 "proj", OsStr.utf8 "app"] (by decide)).2
    [OsStr.utf8 "proj"] (by decide) (by decide)

/-- C7: cache transparency.  Resolving with a warm cache — any cache whose
entries agree with the verdicts the unchanged filesystem produces, which is
what earlier resolutions insert — yields the same result as resolving with a
fresh empty cache or with no cache at all. -/
theorem claim7_cache_transparency (fs : FS) (cfg : Config) (source : Path)
    (source_dirs : Option (List Path)) (cluster : Option (List Path))
    (warm : ExclusionCache) (hwarm : Coherent cfg warm) :
    (find_root_with_cache fs cfg source source_dirs cluster (some warm)).1 =
        find_root fs cfg source source_dirs cluster ∧
      (find_root_with_cache fs cfg source source_dirs cluster
          (some ExclusionCache.new)).1 =
        find_root fs cfg source source_dirs cluster := by
  constructor
  · exact (resolve_ok source source_dirs cluster
        (show CacheOK cfg (some warm) from hwarm)).trans
      (resolve_ok source source_dirs cluster (cacheOK_none cfg)).symm
  · exact (resolve_ok source source_dirs cluster
        (show CacheOK cfg (some ExclusionCache.new) from coherent_new cfg)).trans
      (resolve_ok source source_dirs cluster (cacheOK_none cfg)).symm

/-- A warm cache holding one entry that an earlier resolution over `fsProj`
would have produced (the key is excluded, and the entry records `true`). -/
def warmCache : ExclusionCache :=
  ExclusionCache.new.insert
    [OsStr.utf8 "proj", OsStr.utf8 "node_modules", OsStr.utf8 "x"] true

/-- C7 witness: resolving `/proj/src/m` with the warm cache and with the
fresh cache both give the no-cache result. -/
theorem claim7_witness :
    (find_root_with_cache fsProj cfgStd
          [OsStr.utf8 "proj", OsStr.utf8 "src", OsStr.utf8 "m"] none none
          (some warmCache)).1 =
        find_root fsProj cfgStd
          [OsStr.utf8 "proj", OsStr.utf8 "src", OsStr.utf8 "m"] none none ∧
      (find_root_with_cache fsProj cfgStd
          [OsStr.utf8 "proj", OsStr.utf8 "src", OsStr.utf8 "m"] none none
          (some ExclusionCache.new)).1 =
        find_root fsProj cfgStd
          [OsStr.utf8 "proj", OsStr.utf8 "src", OsStr.utf8 "m"] none none :=
  claim7_cache_transparency fsProj cfgStd
    [OsStr.utf8 "proj", OsStr.utf8 "src", OsStr.utf8 "m"] none none warmCache
    (coherent_insert (coherent_new cfgStd) (by decide))

/-- A filesystem where two distinct paths `/link1` and `/link2` (two symlink
spellings) canonicalize to the same file `/a/f`. -/
def fsTwoLinks : FS :=
  { canon := fun p =>
      if p = [OsStr.utf8 "link1"] then some [OsStr.utf8 "a", OsStr.utf8 "f"]
      else if p = [OsStr.utf8 "link2"] then some [OsStr.utf8 "a", OsStr.utf8 "f"]
      else none,
    pathExists := fun _ => false,
    readDir := fun _ => none }

/-- C4 counterexample: the claim says each chain consists of the path's own
DIRECTORY up to the root.  `compute_lca_spec` computes exactly that and
yields `/a` for the cluster `{/link1, /link2}` (both canonicalize to the
file `/a/f`), but the code's `compute_lca` builds each chain from the
resolved path ITSELF and returns the file path `/a/f` — not a directory of
the intersection the claim describes. -/
theorem claim4_counterexample :
    compute_lca fsTwoLinks [[OsStr.utf8 "link1"], [OsStr.utf8 "link2"]] =
        some [OsStr.utf8 "a", OsStr.utf8 "f"] ∧
      compute_lca_spec fsTwoLinks [[OsStr.utf8 "link1"], [OsStr.utf8 "link2"]] =
        some [OsStr.utf8 "a"] ∧
      compute_lca fsTwoLinks [[OsStr.utf8 "link1"], [OsStr.utf8 "link2"]] ≠
        compute_lca_spec fsTwoLinks [[OsStr.utf8 "link1"], [OsStr.utf8 "link2"]] :=
  ⟨by decide, by decide, by decide⟩

/-- C4 (amended): `compute_lca` builds, for each cluster path that
canonicalizes successfully (failures are skipped), the ancestor chain
consisting of the resolved path ITSELF and its ancestors up to the
filesystem root, intersects these chains, and returns an element of the
intersection with the greatest number of components: whenever it answers
`some l`, `l` lies on every valid member's chain and no common chain element
is longer. -/
theorem claim4_lca_deepest_common (fs : FS) (paths : List Path) (l : Path)
    (h : compute_lca fs paths = some l) :
    (∀ p ∈ paths, ∀ r, fs.canon p = some r → l ∈ ancestorsOf r) ∧
      ∀ m, (∀ p ∈ paths, ∀ r, fs.canon p = some r → m ∈ ancestorsOf r) →
        m.length ≤ l.length := by
  unfold compute_lca at h
  cases hch : paths.filterMap (fun p => (fs.canon p).map ancestorsOf) with
  | nil =>
    rw [hch] at h
    simp at h
  | cons c cs =>
    rw [hch] at h
    have h2 : deepestOf
        (cs.foldl (fun acc chain => acc.filter (fun x => decide (x ∈ chain))) c) =
        some l := h
    obtain ⟨hlmem, hlmax⟩ := deepestOf_spec h2
    have hlin := (mem_foldl_inter cs c).mp hlmem
    constructor
    · intro p hp r hr
      have hchain_mem : ancestorsOf r ∈
          paths.filterMap (fun p => (fs.canon p).map ancestorsOf) :=
        List.mem_filterMap.mpr ⟨p, hp, by rw [hr]; rfl⟩
      rw [hch] at hchain_mem
      rcases List.mem_cons.mp hchain_mem with h1 | h1
      · rw [h1]
        exact hlin.1
      · exact hlin.2 _ h1
    · intro m hm
      have hmem : m ∈
          cs.foldl (fun acc chain => acc.filter (fun x => decide (x ∈ chain))) c := by
        rw [mem_foldl_inter]
        constructor
        · have hc : c ∈ paths.filterMap (fun p => (fs.canon p).map ancestorsOf) := by
            rw [hch]
            exact List.mem_cons_self _ _
          obtain ⟨p, r, hp, hr, hcr⟩ := chain_of_mem_chains hc
          rw [hcr]
          exact hm p hp r hr
        · intro ch hchm
          have hc : ch ∈ paths.filterMap (fun p => (fs.canon p).map ancestorsOf) := by
            rw [hch]
            exact List.mem_cons_of_mem _ hchm
          obtain ⟨p, r, hp, hr, hcr⟩ := chain_of_mem_chains hc
          rw [hcr]
          exact hm p hp r hr
      exact hlmax m hmem

/-- C4 amended-claim witness: on the two-symlink cluster the returned
element `/a/f` lies on the chain of the valid member `/link1` (whose
canonical form is `/a/f`). -/
theorem claim4_witness :
    [OsStr.utf8 "a", OsStr.utf8 "f"] ∈
      ancestorsOf [OsStr.utf8 "a", OsStr.utf8 "f"] :=
  (claim4_lca_deepest_common fsTwoLinks
      [[OsStr.utf8 "link1"], [OsStr.utf8 "link2"]]
      [OsStr.utf8 "a", OsStr.utf8 "f"] (by decide)).1
    [OsStr.utf8 "link1"] (by decide) [OsStr.utf8 "a", OsStr.utf8 "f"] (by decide)

/-- A filesystem with a symlinked file: the given spelling `/lnk/f`
canonicalizes to `/real/f`; everything else resolves to itself. -/
def fsSymlink : FS :=
  { canon := fun p =>
      if p = [OsStr.utf8 "lnk", OsStr.utf8 "f"] then
        some [OsStr.utf8 "real", OsStr.utf8 "f"]
      else some p,
    pathExists := fun _ => false,
    readDir := fun _ => none }

/-- C8: source-directory membership is exact path equality on the paths as
given.  First, the batch source-directory set contains exactly the
as-given parents of the non-excluded input files (the parent of the input
spelling, not of its canonical form).  Second, `find_orphanage` — which
takes no configuration at all, so the `case_insensitive` flag cannot reach
it — fails to match a source directory spelled `/Proj` against the ancestor
`/proj` (falling back to the file's parent), while the identical spelling
matches. -/
theorem claim8_exact_path_equality (fs : FS) (cfg : Config) (files : List Path) :
    (∀ d, d ∈ (batchSourceDirs fs cfg files ExclusionCache.new).1 ↔
        ∃ f ∈ files, (is_excluded fs cfg f none).1 = false ∧ parentOf f = some d) ∧
      find_orphanage [OsStr.utf8 "proj", OsStr.utf8 "a", OsStr.utf8 "f"]
          [[OsStr.utf8 "Proj"]] =
        [OsStr.utf8 "proj", OsStr.utf8 "a"] ∧
      find_orphanage [OsStr.utf8 "proj", OsStr.utf8 "a", OsStr.utf8 "f"]
          [[OsStr.utf8 "proj"]] =
        [OsStr.utf8 "proj"] := by
  refine ⟨(batchSourceDirs_ok files (coherent_new cfg)).1, by decide, by decide⟩

/-- C8 witness: with the file given as `/lnk/f` (canonicalizing to
`/real/f`), the batch source-directory set contains the as-given parent
`/lnk` — membership is decided on the spelling supplied, not the canonical
one. -/
theorem claim8_witness :
    [OsStr.utf8 "lnk"] ∈
      (batchSourceDirs fsSymlink cfgStd [[OsStr.utf8 "lnk", OsStr.utf8 "f"]]
        ExclusionCache.new).1 :=
  ((claim8_exact_path_equality fsSymlink cfgStd
      [[OsStr.utf8 "lnk", OsStr.utf8 "f"]]).1 [OsStr.utf8 "lnk"]).mpr
    ⟨[OsStr.utf8 "lnk", OsStr.utf8 "f"], by decide, by decide, by decide⟩

end RootDetect
